import Mathlib

/-!
Shallow embedding of the merkle-tree library (src/lib.rs) and proofs of the
specification claims.

The Rust code hashes strings with SHA-256 (Hash::hash); every definition here
is parametrized by an arbitrary digest function hash : String → String, and
the claims that rely on collision resistance of SHA-256 take injectivity of
hash as an explicit hypothesis.  A node Rc<RefCell<Hash>> is embedded as a
pure tree HNode; the parent back-pointer is dropped (no observable behaviour
of the library reads it).  The in-place mutation of is_left performed by
make_parent on nodes that are aliased from the audit list is reproduced by
mutateLevel (see its comment).  Rust panics (slice index out of bounds) and
divergence (infinite recursion) are both modelled by Option.none, with
recursion bounded by explicit fuel so that divergence is the statement that
no amount of fuel produces a result.
-/

/-- Embedding of struct Hash (minus the parent back-pointer): a tree node
with a digest value, an is_left flag and optional left/right children.
The Rust struct stores the children as two independent Option fields, so the
embedding does too: the both-or-neither shape is an invariant to be proved,
not a property of the type. -/
inductive HNode : Type where
  | mk (value : String) (isLeft : Bool) (left : Option HNode) (right : Option HNode)

def HNode.value : HNode → String
  | .mk v _ _ _ => v

def HNode.isLeft : HNode → Bool
  | .mk _ b _ _ => b

/-- Hash::new — a fresh node with the given value, no links, is_left true. -/
def hashNew (value : String) : HNode :=
  .mk value true none none

instance : Inhabited HNode := ⟨hashNew ""⟩

/-- The leaf nodes built by merkle_root / merkle_proof from the raw leaves:
Hash::new(Hash::hash(leaf)). -/
def leafNode (hash : String → String) (leaf : String) : HNode :=
  hashNew (hash leaf)

/-- Setting the is_left field in place (left.borrow_mut().is_left = ...). -/
def setIsLeft : HNode → Bool → HNode
  | .mk v _ l r, b => .mk v b l r

/-- MerkleTree::make_parent: parent node whose value is
hash(left.value ++ right.value); is_left is set to true on the left child and
to false on the right child, and both become children of the parent (whose
own is_left starts out true from Hash::new). -/
def make_parent (hash : String → String) (l r : HNode) : HNode :=
  .mk (hash (l.value ++ r.value)) true (some (setIsLeft l true)) (some (setIsLeft r false))

/-- One folding pass of merkle_root_aux / merkle_proof_aux: pair up the level
left to right ((0,1), (2,3), ...) into parents via make_parent; when the
level has odd length the last node is promoted unchanged. -/
def foldLevel (hash : String → String) : List HNode → List HNode
  | [] => []
  | [x] => [x]
  | x :: y :: rest => make_parent hash x y :: foldLevel hash rest

/-- The state of the nodes of the current level after the folding pass ran:
make_parent sets is_left on every paired node (true at even positions, false
at odd ones); a promoted last node is untouched.  In the Rust code the audit
list holds Rc aliases of these nodes, so the is_left value it observes is this
post-fold one; the pure embedding of merkle_proof_aux therefore pushes the
node as given by mutateLevel. -/
def mutateLevel : List HNode → List HNode
  | [] => []
  | [x] => [x]
  | x :: y :: rest => setIsLeft x true :: setIsLeft y false :: mutateLevel rest

/-- MerkleTree::merkle_root_aux with explicit fuel: if one node is left it is
the root, otherwise fold the level and recurse.  (On an empty level the Rust
function recurses forever; here every fuel bound runs out and yields none.) -/
def merkle_root_aux (hash : String → String) : Nat → List HNode → Option HNode
  | 0, _ => none
  | fuel + 1, nodes =>
    if nodes.length == 1 then some nodes.head!
    else merkle_root_aux hash fuel (foldLevel hash nodes)

/-- MerkleTree::merkle_root: hash the leaves into nodes and fold them up.
The fuel leaves.length is enough for every non-empty leaf list (proved
below); for the empty list the Rust code diverges and this returns none. -/
def merkle_root (hash : String → String) (leaves : List String) : Option HNode :=
  merkle_root_aux hash leaves.length (leaves.map (leafNode hash))

/-- Embedding of struct MerkleProof. -/
structure MerkleProof where
  hashes : List HNode
  num_of_leaves : Nat
  leaf_index : Nat
  leaf_content : String

/-- MerkleTree::merkle_proof_aux with explicit fuel: at each level push the
sibling of the target (in its post-fold state, see mutateLevel) onto the audit
list when its index is in bounds, fold the level, halve the target index and
recurse; stop when one node is left. -/
def merkle_proof_aux (hash : String → String) :
    Nat → List HNode → List HNode → Nat → Option (List HNode)
  | 0, _, _, _ => none
  | fuel + 1, nodes, audit, target =>
    if nodes.length == 1 then some audit
    else
      let sibling := if target % 2 == 0 then target + 1 else target - 1
      let audit' := match (mutateLevel nodes)[sibling]? with
        | some e => audit ++ [e]
        | none => audit
      merkle_proof_aux hash fuel (foldLevel hash nodes) audit' (target / 2)

/-- MerkleTree::merkle_proof: hash the leaves, run merkle_proof_aux, then
read leaves[leaf_index] — in Rust that slice access panics when leaf_index is
out of range (there is no bounds check before it); the panic is modelled by
none. -/
def merkle_proof (hash : String → String) (leaves : List String) (leaf_index : Nat) :
    Option MerkleProof :=
  let nodes := leaves.map (leafNode hash)
  match merkle_proof_aux hash nodes.length nodes [] leaf_index with
  | none => none
  | some audit =>
    match leaves[leaf_index]? with
    | none => none
    | some content => some ⟨audit, nodes.length, leaf_index, content⟩

/-- One verification step of MerkleTree::verify_proof: combine the running
digest with an audit node on the side recorded by its is_left flag. -/
def chainStep (hash : String → String) (result : String) (audit : HNode) : String :=
  if audit.isLeft then hash (audit.value ++ result) else hash (result ++ audit.value)

/-- The verification loop over the audit hashes. -/
def chain (hash : String → String) (audit : List HNode) (start : String) : String :=
  audit.foldl (chainStep hash) start

/-- MerkleTree::verify_proof: start from hash(leaf_content), fold in every
audit hash in order, and compare with the root's value.  Only the hashes and
leaf_content fields of the proof are read. -/
def verify_proof (hash : String → String) (root : HNode) (proof : MerkleProof) : Bool :=
  chain hash proof.hashes (hash proof.leaf_content) == root.value

/-! Instrumented variants used to state the termination-depth claim and the
hashing-before-panic claim.  They follow the plain functions line by line and
additionally count recursion steps, respectively invocations of Hash::hash
(one per make_parent call, i.e. nodes.length / 2 per folded level, plus one
per leaf when the leaves are first hashed). -/

/-- Step-counting merkle_root_aux: also returns how many folding passes were
performed before a single node remained. -/
def merkle_root_aux_steps (hash : String → String) : Nat → List HNode → Option (HNode × Nat)
  | 0, _ => none
  | fuel + 1, nodes =>
    if nodes.length == 1 then some (nodes.head!, 0)
    else (merkle_root_aux_steps hash fuel (foldLevel hash nodes)).map fun p => (p.1, p.2 + 1)

/-- Step-counting merkle_root. -/
def merkle_root_steps (hash : String → String) (leaves : List String) : Option (HNode × Nat) :=
  merkle_root_aux_steps hash leaves.length (leaves.map (leafNode hash))

/-- Hash-call-counting merkle_proof_aux: the extra argument calls accumulates
the number of Hash::hash invocations performed so far (make_parent performs
one per pair, nodes.length / 2 pairs per level). -/
def merkle_proof_aux_traced (hash : String → String) :
    Nat → List HNode → List HNode → Nat → Nat → Option (List HNode × Nat)
  | 0, _, _, _, _ => none
  | fuel + 1, nodes, audit, target, calls =>
    if nodes.length == 1 then some (audit, calls)
    else
      let sibling := if target % 2 == 0 then target + 1 else target - 1
      let audit' := match (mutateLevel nodes)[sibling]? with
        | some e => audit ++ [e]
        | none => audit
      merkle_proof_aux_traced hash fuel (foldLevel hash nodes) audit' (target / 2)
        (calls + nodes.length / 2)

/-- Hash-call-counting merkle_proof: the first component is the number of
Hash::hash invocations performed before the call returned or panicked, the
second is the result (none models the leaves[leaf_index] panic).  Hashing the
leaves happens first and costs leaves.length calls. -/
def merkle_proof_traced (hash : String → String) (leaves : List String) (leaf_index : Nat) :
    Nat × Option MerkleProof :=
  let nodes := leaves.map (leafNode hash)
  match merkle_proof_aux_traced hash nodes.length nodes [] leaf_index nodes.length with
  | none => (nodes.length, none)
  | some (audit, calls) =>
    match leaves[leaf_index]? with
    | none => (calls, none)
    | some content => (calls, some ⟨audit, nodes.length, leaf_index, content⟩)

/-- An injective stand-in digest function, used to instantiate the abstract
hash in concrete witnesses (injectivity plays the role that collision
resistance of SHA-256 plays for the Rust code). -/
def hashInj (s : String) : String :=
  "#" ++ s ++ ";"


/-- The structural invariant claimed for every node reachable from a built
root: either no children and the value is the digest of one of the raw
leaves, or exactly two children and the value is the digest of the
concatenation of the values of the children.  (The node type allows a single
child, so the both-or-neither shape is genuinely part of the predicate.) -/
inductive GoodNode (hash : String → String) (leaves : List String) : HNode → Prop where
  | leaf (v : String) (b : Bool) (hv : v ∈ leaves.map hash) :
      GoodNode hash leaves (.mk v b none none)
  | node (b : Bool) (l r : HNode) (hl : GoodNode hash leaves l) (hr : GoodNode hash leaves r) :
      GoodNode hash leaves (.mk (hash (l.value ++ r.value)) b (some l) (some r))

/-! Basic lemmas about the embedding. -/

theorem value_setIsLeft (n : HNode) (b : Bool) : (setIsLeft n b).value = n.value := by
  cases n
  rfl

theorem isLeft_setIsLeft (n : HNode) (b : Bool) : (setIsLeft n b).isLeft = b := by
  cases n
  rfl

theorem value_make_parent (hash : String → String) (l r : HNode) :
    (make_parent hash l r).value = hash (l.value ++ r.value) := rfl

theorem foldLevel_nil (hash : String → String) : foldLevel hash [] = [] := by
  simp [foldLevel]

theorem foldLevel_single (hash : String → String) (x : HNode) :
    foldLevel hash [x] = [x] := by
  simp [foldLevel]

theorem foldLevel_cons_cons (hash : String → String) (x y : HNode) (rest : List HNode) :
    foldLevel hash (x :: y :: rest) = make_parent hash x y :: foldLevel hash rest := by
  simp [foldLevel]

theorem mutateLevel_nil : mutateLevel [] = [] := by
  simp [mutateLevel]

theorem mutateLevel_single (x : HNode) : mutateLevel [x] = [x] := by
  simp [mutateLevel]

theorem mutateLevel_cons_cons (x y : HNode) (rest : List HNode) :
    mutateLevel (x :: y :: rest) = setIsLeft x true :: setIsLeft y false :: mutateLevel rest := by
  simp [mutateLevel]

theorem foldLevel_length (hash : String → String) :
    ∀ ns : List HNode, (foldLevel hash ns).length = (ns.length + 1) / 2
  | [] => by simp [foldLevel_nil]
  | [x] => by simp [foldLevel_single]
  | x :: y :: rest => by
    rw [foldLevel_cons_cons]
    simp only [List.length_cons, foldLevel_length hash rest]
    omega

theorem mutateLevel_length :
    ∀ ns : List HNode, (mutateLevel ns).length = ns.length
  | [] => by simp [mutateLevel_nil]
  | [x] => by simp [mutateLevel_single]
  | x :: y :: rest => by
    rw [mutateLevel_cons_cons]
    simp only [List.length_cons, mutateLevel_length rest]

theorem foldLevel_getElem_pair (hash : String → String) :
    ∀ (k : Nat) (ns : List HNode) (x y : HNode), ns[2 * k]? = some x →
      ns[2 * k + 1]? = some y → (foldLevel hash ns)[k]? = some (make_parent hash x y)
  | 0, [], _, _, hx, _ => by simp at hx
  | 0, [a], x, y, hx, hy => by simp at hy
  | 0, a :: b :: rest, x, y, hx, hy => by
    simp only [Nat.mul_zero, List.getElem?_cons_zero, Option.some.injEq] at hx
    simp only [Nat.mul_zero, Nat.zero_add, List.getElem?_cons_succ,
      List.getElem?_cons_zero, Option.some.injEq] at hy
    subst hx; subst hy
    rw [foldLevel_cons_cons]
    exact List.getElem?_cons_zero
  | k + 1, [], _, _, hx, _ => by simp at hx
  | k + 1, [a], x, y, hx, hy => by
    have h2 : 2 * (k + 1) = 2 * k + 1 + 1 := by omega
    rw [h2] at hx
    simp at hx
  | k + 1, a :: b :: rest, x, y, hx, hy => by
    have h2 : 2 * (k + 1) = 2 * k + 1 + 1 := by omega
    rw [h2, List.getElem?_cons_succ, List.getElem?_cons_succ] at hx
    rw [h2, List.getElem?_cons_succ, List.getElem?_cons_succ] at hy
    rw [foldLevel_cons_cons, List.getElem?_cons_succ]
    exact foldLevel_getElem_pair hash k rest x y hx hy

theorem foldLevel_getElem_promoted (hash : String → String) :
    ∀ (k : Nat) (ns : List HNode), ns.length = 2 * k + 1 →
      (foldLevel hash ns)[k]? = ns[2 * k]?
  | 0, [], h => by simp at h
  | 0, [a], _ => by rw [foldLevel_single]
  | 0, _ :: _ :: _, h => by
    simp only [List.length_cons] at h
    omega
  | k + 1, [], h => by simp at h
  | k + 1, [a], h => by
    simp only [List.length_cons, List.length_nil] at h
    omega
  | k + 1, a :: b :: rest, h => by
    have h2 : 2 * (k + 1) = 2 * k + 1 + 1 := by omega
    have hr : rest.length = 2 * k + 1 := by
      simp only [List.length_cons] at h
      omega
    rw [h2, List.getElem?_cons_succ, List.getElem?_cons_succ,
      foldLevel_cons_cons, List.getElem?_cons_succ]
    exact foldLevel_getElem_promoted hash k rest hr

theorem mutateLevel_getElem_even :
    ∀ (k : Nat) (ns : List HNode) (x : HNode), ns[2 * k]? = some x →
      2 * k + 1 < ns.length → (mutateLevel ns)[2 * k]? = some (setIsLeft x true)
  | 0, [], _, hx, _ => by simp at hx
  | 0, [a], _, _, hlen => by simp at hlen
  | 0, a :: b :: rest, x, hx, _ => by
    simp only [Nat.mul_zero, List.getElem?_cons_zero, Option.some.injEq] at hx
    subst hx
    rw [mutateLevel_cons_cons]
    exact List.getElem?_cons_zero
  | k + 1, [], _, hx, _ => by simp at hx
  | k + 1, [a], _, _, hlen => by
    simp only [List.length_cons, List.length_nil] at hlen
    omega
  | k + 1, a :: b :: rest, x, hx, hlen => by
    have h2 : 2 * (k + 1) = 2 * k + 1 + 1 := by omega
    rw [h2, List.getElem?_cons_succ, List.getElem?_cons_succ] at hx
    have hr : 2 * k + 1 < rest.length := by
      simp only [List.length_cons] at hlen
      omega
    rw [h2, mutateLevel_cons_cons, List.getElem?_cons_succ, List.getElem?_cons_succ]
    exact mutateLevel_getElem_even k rest x hx hr

theorem mutateLevel_getElem_odd :
    ∀ (k : Nat) (ns : List HNode) (x : HNode), ns[2 * k + 1]? = some x →
      (mutateLevel ns)[2 * k + 1]? = some (setIsLeft x false)
  | 0, [], _, hx => by simp at hx
  | 0, [a], _, hx => by simp at hx
  | 0, a :: b :: rest, x, hx => by
    simp only [Nat.mul_zero, Nat.zero_add, List.getElem?_cons_succ,
      List.getElem?_cons_zero, Option.some.injEq] at hx
    subst hx
    rw [mutateLevel_cons_cons, List.getElem?_cons_succ]
    exact List.getElem?_cons_zero
  | k + 1, [], _, hx => by simp at hx
  | k + 1, [a], _, hx => by
    have h2 : 2 * (k + 1) + 1 = 2 * k + 1 + 1 + 1 := by omega
    rw [h2] at hx
    simp at hx
  | k + 1, a :: b :: rest, x, hx => by
    have h2 : 2 * (k + 1) + 1 = 2 * k + 1 + 1 + 1 := by omega
    rw [h2, List.getElem?_cons_succ, List.getElem?_cons_succ] at hx
    rw [h2, mutateLevel_cons_cons, List.getElem?_cons_succ, List.getElem?_cons_succ]
    exact mutateLevel_getElem_odd k rest x hx

theorem chain_nil (hash : String → String) (s : String) : chain hash [] s = s := rfl

theorem chain_cons (hash : String → String) (a : HNode) (l : List HNode) (s : String) :
    chain hash (a :: l) s = chain hash l (chainStep hash s a) := rfl

theorem chain_append (hash : String → String) (l₁ l₂ : List HNode) (s : String) :
    chain hash (l₁ ++ l₂) s = chain hash l₂ (chain hash l₁ s) := by
  simp [chain, List.foldl_append]

theorem merkle_root_aux_one (hash : String → String) (fuel : Nat) (ns : List HNode)
    (h : (ns.length == 1) = true) :
    merkle_root_aux hash (fuel + 1) ns = some ns.head! := by
  simp [merkle_root_aux, h]

theorem merkle_root_aux_step (hash : String → String) (fuel : Nat) (ns : List HNode)
    (h : (ns.length == 1) = false) :
    merkle_root_aux hash (fuel + 1) ns = merkle_root_aux hash fuel (foldLevel hash ns) := by
  simp [merkle_root_aux, h]

theorem merkle_proof_aux_one (hash : String → String) (fuel : Nat) (ns audit : List HNode)
    (t : Nat) (h : (ns.length == 1) = true) :
    merkle_proof_aux hash (fuel + 1) ns audit t = some audit := by
  simp [merkle_proof_aux, h]

theorem merkle_proof_aux_step (hash : String → String) (fuel : Nat) (ns audit : List HNode)
    (t : Nat) (h : (ns.length == 1) = false) :
    merkle_proof_aux hash (fuel + 1) ns audit t =
      merkle_proof_aux hash fuel (foldLevel hash ns)
        (match (mutateLevel ns)[if t % 2 == 0 then t + 1 else t - 1]? with
          | some e => audit ++ [e]
          | none => audit)
        (t / 2) := by
  simp [merkle_proof_aux, h]

theorem merkle_proof_aux_acc (hash : String → String) :
    ∀ (fuel : Nat) (ns acc : List HNode) (t : Nat),
      merkle_proof_aux hash fuel ns acc t =
        (merkle_proof_aux hash fuel ns [] t).map (acc ++ ·)
  | 0, ns, acc, t => by simp [merkle_proof_aux]
  | fuel + 1, ns, acc, t => by
    by_cases h : (ns.length == 1) = true
    · rw [merkle_proof_aux_one hash fuel ns acc t h, merkle_proof_aux_one hash fuel ns [] t h]
      simp
    · have h' : (ns.length == 1) = false := by
        revert h
        cases ns.length == 1
        · intro
          rfl
        · intro hc
          exact absurd rfl hc
      rw [merkle_proof_aux_step hash fuel ns acc t h', merkle_proof_aux_step hash fuel ns [] t h']
      cases hm : (mutateLevel ns)[if t % 2 == 0 then t + 1 else t - 1]? with
      | none =>
        simp only
        exact merkle_proof_aux_acc hash fuel (foldLevel hash ns) acc (t / 2)
      | some e =>
        simp only
        rw [merkle_proof_aux_acc hash fuel (foldLevel hash ns) (acc ++ [e]) (t / 2),
          merkle_proof_aux_acc hash fuel (foldLevel hash ns) ([] ++ [e]) (t / 2),
          Option.map_map]
        congr 1
        funext l
        simp

/-- Central invariant of the level-folding recursion: from any level with a
target node in range, merkle_proof_aux terminates on the audit path whose
replay (chain) carries the digest of the target to the digest of the root that
merkle_root_aux computes from the same level. -/
theorem aux_key (hash : String → String) :
    ∀ (len : Nat) (ns : List HNode) (t : Nat) (x : HNode), ns.length = len →
      ns[t]? = some x →
      ∃ audit root,
        (∀ fuel, len ≤ fuel →
          merkle_proof_aux hash fuel ns [] t = some audit ∧
          merkle_root_aux hash fuel ns = some root) ∧
        chain hash audit x.value = root.value := by
  intro len
  induction len using Nat.strongRecOn with
  | ind len ih =>
  intro ns t x hlen hx
  match len, hlen with
  | 0, hlen =>
    rw [List.length_eq_zero.mp hlen] at hx
    simp at hx
  | 1, hlen =>
    obtain ⟨y, rfl⟩ := List.length_eq_one.mp hlen
    match t, hx with
    | 0, hx =>
      rw [List.getElem?_cons_zero, Option.some.injEq] at hx
      refine ⟨[], y, ?_, by rw [hx, chain_nil]⟩
      intro fuel hfuel
      obtain ⟨f, rfl⟩ : ∃ f, fuel = f + 1 := ⟨fuel - 1, by omega⟩
      exact ⟨merkle_proof_aux_one hash f [y] [] 0 rfl, merkle_root_aux_one hash f [y] rfl⟩
    | t + 1, hx => simp at hx
  | len' + 2, hlen =>
    have ht : t < len' + 2 := by
      rw [← hlen]
      exact (List.getElem?_eq_some_iff.mp hx).1
    have hne : (ns.length == 1) = false := by
      rw [hlen]
      rfl
    have hlenf : (foldLevel hash ns).length = (len' + 3) / 2 := by
      rw [foldLevel_length, hlen]
    have hlt' : (len' + 3) / 2 < len' + 2 := by omega
    by_cases hpar : t % 2 = 0
    · obtain ⟨k, hk⟩ : ∃ k, t = 2 * k := ⟨t / 2, by omega⟩
      by_cases hlast : t + 1 < len' + 2
      · -- the target is paired with the sibling on its right
        have hylt : t + 1 < ns.length := by omega
        have hy : ns[t + 1]? = some ns[t + 1] := List.getElem?_eq_getElem hylt
        have hx' : (foldLevel hash ns)[k]? = some (make_parent hash x ns[t + 1]) := by
          refine foldLevel_getElem_pair hash k ns x ns[t + 1] ?_ ?_
          · rw [← hk]; exact hx
          · rw [show 2 * k + 1 = t + 1 by omega]; exact hy
        have hmut : (mutateLevel ns)[t + 1]? = some (setIsLeft ns[t + 1] false) := by
          have h1 := mutateLevel_getElem_odd k ns ns[t + 1]
            (by rw [show 2 * k + 1 = t + 1 by omega]; exact hy)
          rw [show 2 * k + 1 = t + 1 by omega] at h1
          exact h1
        obtain ⟨audit', root, hfa, hchain⟩ :=
          ih ((len' + 3) / 2) hlt' (foldLevel hash ns) k (make_parent hash x ns[t + 1]) hlenf hx'
        refine ⟨setIsLeft ns[t + 1] false :: audit', root, ?_, ?_⟩
        · intro fuel hfuel
          obtain ⟨f, rfl⟩ : ∃ f, fuel = f + 1 := ⟨fuel - 1, by omega⟩
          have hf' : (len' + 3) / 2 ≤ f := by omega
          obtain ⟨hp, hr⟩ := hfa f hf'
          constructor
          · rw [merkle_proof_aux_step hash f ns [] t hne]
            simp only [hpar, Nat.reduceBEq, if_true, hmut, beq_self_eq_true, reduceIte]
            rw [show t / 2 = k by omega, List.nil_append,
              merkle_proof_aux_acc hash f (foldLevel hash ns) [setIsLeft ns[t + 1] false] k, hp]
            rfl
          · rw [merkle_root_aux_step hash f ns hne]
            exact hr
        · rw [chain_cons]
          have hstep : chainStep hash x.value (setIsLeft ns[t + 1] false) =
              (make_parent hash x ns[t + 1]).value := by
            simp [chainStep, isLeft_setIsLeft, value_setIsLeft, value_make_parent]
          rw [hstep]
          exact hchain
      · -- the target is the promoted rightmost node of an odd level
        have hlast' : t + 1 = len' + 2 := by omega
        have hodd : ns.length = 2 * k + 1 := by omega
        have hx' : (foldLevel hash ns)[k]? = some x := by
          rw [foldLevel_getElem_promoted hash k ns hodd, ← hk]
          exact hx
        have hmut : (mutateLevel ns)[t + 1]? = none := by
          refine List.getElem?_eq_none ?_
          rw [mutateLevel_length, hlen]
          omega
        obtain ⟨audit', root, hfa, hchain⟩ :=
          ih ((len' + 3) / 2) hlt' (foldLevel hash ns) k x hlenf hx'
        refine ⟨audit', root, ?_, hchain⟩
        intro fuel hfuel
        obtain ⟨f, rfl⟩ : ∃ f, fuel = f + 1 := ⟨fuel - 1, by omega⟩
        have hf' : (len' + 3) / 2 ≤ f := by omega
        obtain ⟨hp, hr⟩ := hfa f hf'
        constructor
        · rw [merkle_proof_aux_step hash f ns [] t hne]
          simp only [hpar, Nat.reduceBEq, if_true, hmut, beq_self_eq_true, reduceIte]
          rw [show t / 2 = k by omega]
          exact hp
        · rw [merkle_root_aux_step hash f ns hne]
          exact hr
    · -- the target is odd, its sibling is on its left
      have hpar' : t % 2 = 1 := by omega
      obtain ⟨k, hk⟩ : ∃ k, t = 2 * k + 1 := ⟨t / 2, by omega⟩
      have hylt : 2 * k < ns.length := by omega
      have hy : ns[2 * k]? = some ns[2 * k] := List.getElem?_eq_getElem hylt
      have hx2 : ns[2 * k + 1]? = some x := by rw [← hk]; exact hx
      have hx' : (foldLevel hash ns)[k]? = some (make_parent hash ns[2 * k] x) :=
        foldLevel_getElem_pair hash k ns ns[2 * k] x hy hx2
      have hmut : (mutateLevel ns)[t - 1]? = some (setIsLeft ns[2 * k] true) := by
        have h1 := mutateLevel_getElem_even k ns ns[2 * k] hy (by omega)
        rw [show t - 1 = 2 * k by omega]
        exact h1
      obtain ⟨audit', root, hfa, hchain⟩ :=
        ih ((len' + 3) / 2) hlt' (foldLevel hash ns) k (make_parent hash ns[2 * k] x) hlenf hx'
      refine ⟨setIsLeft ns[2 * k] true :: audit', root, ?_, ?_⟩
      · intro fuel hfuel
        obtain ⟨f, rfl⟩ : ∃ f, fuel = f + 1 := ⟨fuel - 1, by omega⟩
        have hf' : (len' + 3) / 2 ≤ f := by omega
        obtain ⟨hp, hr⟩ := hfa f hf'
        constructor
        · rw [merkle_proof_aux_step hash f ns [] t hne]
          simp only [hpar', Nat.reduceBEq, Bool.false_eq_true, reduceIte, hmut]
          rw [show t / 2 = k by omega, List.nil_append,
            merkle_proof_aux_acc hash f (foldLevel hash ns) [setIsLeft ns[2 * k] true] k, hp]
          rfl
        · rw [merkle_root_aux_step hash f ns hne]
          exact hr
      · rw [chain_cons]
        have hstep : chainStep hash x.value (setIsLeft ns[2 * k] true) =
            (make_parent hash ns[2 * k] x).value := by
          simp [chainStep, isLeft_setIsLeft, value_setIsLeft, value_make_parent]
        rw [hstep]
        exact hchain

/-! String facts used for the tamper-detection claims. -/

theorem str_append_left_cancel (a x y : String) (h : a ++ x = a ++ y) : x = y := by
  apply String.ext
  have h2 := congrArg String.data h
  simp only [String.data_append] at h2
  exact List.append_cancel_left h2

theorem str_append_right_cancel (x y a : String) (h : x ++ a = y ++ a) : x = y := by
  apply String.ext
  have h2 := congrArg String.data h
  simp only [String.data_append] at h2
  exact List.append_cancel_right h2

theorem str_append_ne_self (s t : String) (ht : t ≠ "") : s ++ t ≠ s := by
  intro he
  apply ht
  apply String.ext
  have h2 := congrArg String.data he
  simp only [String.data_append] at h2
  have h3 : s.data ++ t.data = s.data ++ [] := by
    rw [List.append_nil]
    exact h2
  simpa using List.append_cancel_left h3

theorem str_push_ne_self (s : String) (c : Char) : s.push c ≠ s := by
  intro he
  have h2 := congrArg String.data he
  rw [String.data_push] at h2
  have h3 : s.data ++ [c] = s.data ++ [] := by
    rw [List.append_nil]
    exact h2
  simpa using List.append_cancel_left h3

theorem hashInj_injective : Function.Injective hashInj := by
  intro a b h
  unfold hashInj at h
  exact str_append_left_cancel _ _ _ (str_append_right_cancel _ _ _ h)

/-- When hash is injective (the idealization of collision resistance of
SHA-256), replaying a fixed audit path is injective in the starting
digest. -/
theorem chain_injective (hash : String → String) (hinj : Function.Injective hash) :
    ∀ (audit : List HNode) (s₁ s₂ : String),
      chain hash audit s₁ = chain hash audit s₂ → s₁ = s₂
  | [], _, _, h => h
  | a :: l, s₁, s₂, h => by
    rw [chain_cons, chain_cons] at h
    have h2 := chain_injective hash hinj l _ _ h
    unfold chainStep at h2
    cases hb : a.isLeft with
    | true =>
      rw [hb] at h2
      simp only [if_true] at h2
      exact str_append_left_cancel _ _ _ (hinj h2)
    | false =>
      rw [hb] at h2
      simp only [Bool.false_eq_true, reduceIte] at h2
      exact str_append_right_cancel _ _ _ (hinj h2)

/-! Divergence on the empty level: the Rust recursion folds an empty level to
an empty level forever; in the fueled embedding no amount of fuel yields a
result. -/

theorem merkle_root_aux_empty (hash : String → String) :
    ∀ fuel, merkle_root_aux hash fuel [] = none
  | 0 => rfl
  | fuel + 1 => by
    rw [merkle_root_aux_step hash fuel [] rfl, foldLevel_nil]
    exact merkle_root_aux_empty hash fuel

theorem merkle_proof_aux_empty (hash : String → String) :
    ∀ (fuel : Nat) (acc : List HNode) (t : Nat), merkle_proof_aux hash fuel [] acc t = none
  | 0, _, _ => rfl
  | fuel + 1, acc, t => by
    rw [merkle_proof_aux_step hash fuel [] acc t rfl]
    simp only [mutateLevel_nil, foldLevel_nil, List.getElem?_nil]
    exact merkle_proof_aux_empty hash fuel acc (t / 2)

/-! Termination of the folding recursions on non-empty levels, with step and
hash-call counts. -/

theorem merkle_proof_aux_some (hash : String → String) :
    ∀ (len : Nat) (ns acc : List HNode) (t : Nat), ns.length = len → 0 < len →
      ∀ fuel, len ≤ fuel → ∃ a, merkle_proof_aux hash fuel ns acc t = some a := by
  intro len
  induction len using Nat.strongRecOn with
  | ind len ih =>
  intro ns acc t hlen hpos fuel hfuel
  obtain ⟨f, rfl⟩ : ∃ f, fuel = f + 1 := ⟨fuel - 1, by omega⟩
  by_cases h1 : len = 1
  · subst h1
    exact ⟨acc, merkle_proof_aux_one hash f ns acc t (by simp [hlen])⟩
  · have hne : (ns.length == 1) = false := by
      rw [hlen]
      simp only [beq_eq_false_iff_ne]
      omega
    rw [merkle_proof_aux_step hash f ns acc t hne]
    have hlenf : (foldLevel hash ns).length = (len + 1) / 2 := by
      rw [foldLevel_length, hlen]
    exact ih ((len + 1) / 2) (by omega) (foldLevel hash ns) _ (t / 2) hlenf (by omega) f (by omega)

theorem merkle_root_aux_steps_one (hash : String → String) (fuel : Nat) (ns : List HNode)
    (h : (ns.length == 1) = true) :
    merkle_root_aux_steps hash (fuel + 1) ns = some (ns.head!, 0) := by
  simp [merkle_root_aux_steps, h]

theorem merkle_root_aux_steps_step (hash : String → String) (fuel : Nat) (ns : List HNode)
    (h : (ns.length == 1) = false) :
    merkle_root_aux_steps hash (fuel + 1) ns =
      (merkle_root_aux_steps hash fuel (foldLevel hash ns)).map fun p => (p.1, p.2 + 1) := by
  simp [merkle_root_aux_steps, h]

/-- On a non-empty level of n nodes the fold recursion stops after exactly
ceil(log2 n) folding passes, with the same root as merkle_root_aux. -/
theorem merkle_root_aux_steps_key (hash : String → String) :
    ∀ (len : Nat) (ns : List HNode), ns.length = len → 0 < len →
      ∀ fuel, len ≤ fuel → ∃ r, merkle_root_aux_steps hash fuel ns = some (r, Nat.clog 2 len) ∧
        merkle_root_aux hash fuel ns = some r := by
  intro len
  induction len using Nat.strongRecOn with
  | ind len ih =>
  intro ns hlen hpos fuel hfuel
  obtain ⟨f, rfl⟩ : ∃ f, fuel = f + 1 := ⟨fuel - 1, by omega⟩
  by_cases h1 : len = 1
  · subst h1
    refine ⟨ns.head!, ?_, ?_⟩
    · rw [merkle_root_aux_steps_one hash f ns (by simp [hlen]), Nat.clog_one_right]
    · exact merkle_root_aux_one hash f ns (by simp [hlen])
  · have hne : (ns.length == 1) = false := by
      rw [hlen]
      simp only [beq_eq_false_iff_ne]
      omega
    have hlenf : (foldLevel hash ns).length = (len + 1) / 2 := by
      rw [foldLevel_length, hlen]
    obtain ⟨r, hs, hr⟩ := ih ((len + 1) / 2) (by omega) (foldLevel hash ns) hlenf (by omega)
      f (by omega)
    refine ⟨r, ?_, ?_⟩
    · rw [merkle_root_aux_steps_step hash f ns hne, hs]
      have hclog : Nat.clog 2 len = Nat.clog 2 ((len + 1) / 2) + 1 := by
        have := Nat.clog_of_two_le (b := 2) (n := len) (by norm_num) (by omega)
        simpa using this
      rw [hclog]
      rfl
    · rw [merkle_root_aux_step hash f ns hne]
      exact hr

theorem merkle_proof_aux_traced_one (hash : String → String) (fuel : Nat)
    (ns audit : List HNode) (t c : Nat) (h : (ns.length == 1) = true) :
    merkle_proof_aux_traced hash (fuel + 1) ns audit t c = some (audit, c) := by
  simp [merkle_proof_aux_traced, h]

theorem merkle_proof_aux_traced_step (hash : String → String) (fuel : Nat)
    (ns audit : List HNode) (t c : Nat) (h : (ns.length == 1) = false) :
    merkle_proof_aux_traced hash (fuel + 1) ns audit t c =
      merkle_proof_aux_traced hash fuel (foldLevel hash ns)
        (match (mutateLevel ns)[if t % 2 == 0 then t + 1 else t - 1]? with
          | some e => audit ++ [e]
          | none => audit)
        (t / 2) (c + ns.length / 2) := by
  simp [merkle_proof_aux_traced, h]

/-- Folding a non-empty level of n nodes down to one performs exactly n - 1
make_parent calls, i.e. n - 1 invocations of Hash::hash. -/
theorem merkle_proof_aux_traced_key (hash : String → String) :
    ∀ (len : Nat) (ns audit : List HNode) (t c : Nat), ns.length = len → 0 < len →
      ∀ fuel, len ≤ fuel →
        ∃ a, merkle_proof_aux_traced hash fuel ns audit t c = some (a, c + (len - 1)) := by
  intro len
  induction len using Nat.strongRecOn with
  | ind len ih =>
  intro ns audit t c hlen hpos fuel hfuel
  obtain ⟨f, rfl⟩ : ∃ f, fuel = f + 1 := ⟨fuel - 1, by omega⟩
  by_cases h1 : len = 1
  · subst h1
    refine ⟨audit, ?_⟩
    rw [merkle_proof_aux_traced_one hash f ns audit t c (by simp [hlen])]
    simp
  · have hne : (ns.length == 1) = false := by
      rw [hlen]
      simp only [beq_eq_false_iff_ne]
      omega
    rw [merkle_proof_aux_traced_step hash f ns audit t c hne]
    have hlenf : (foldLevel hash ns).length = (len + 1) / 2 := by
      rw [foldLevel_length, hlen]
    obtain ⟨a, ha⟩ := ih ((len + 1) / 2) (by omega) (foldLevel hash ns)
      (match (mutateLevel ns)[if t % 2 == 0 then t + 1 else t - 1]? with
        | some e => audit ++ [e]
        | none => audit)
      (t / 2) (c + ns.length / 2) hlenf (by omega) f (by omega)
    refine ⟨a, ?_⟩
    rw [ha, hlen]
    have : c + len / 2 + ((len + 1) / 2 - 1) = c + (len - 1) := by omega
    rw [this]

/-- Promotion lemma: when a level has odd length, its last node reappears
unchanged as the last node of the folded level. -/
theorem foldLevel_getLast_odd (hash : String → String) (ns : List HNode)
    (h : ns.length % 2 = 1) : (foldLevel hash ns).getLast? = ns.getLast? := by
  obtain ⟨k, hk⟩ : ∃ k, ns.length = 2 * k + 1 := ⟨ns.length / 2, by omega⟩
  rw [List.getLast?_eq_getElem?, List.getLast?_eq_getElem?, foldLevel_length, hk]
  have h1 : (2 * k + 1 + 1) / 2 - 1 = k := by omega
  have h2 : 2 * k + 1 - 1 = 2 * k := by omega
  rw [h1, h2]
  exact foldLevel_getElem_promoted hash k ns hk

theorem GoodNode_setIsLeft {hash : String → String} {leaves : List String} {n : HNode}
    (h : GoodNode hash leaves n) (b : Bool) : GoodNode hash leaves (setIsLeft n b) := by
  cases h with
  | leaf v b' hv => exact .leaf v b hv
  | node b' l r hl hr => exact .node b l r hl hr

theorem GoodNode_make_parent {hash : String → String} {leaves : List String} {l r : HNode}
    (hl : GoodNode hash leaves l) (hr : GoodNode hash leaves r) :
    GoodNode hash leaves (make_parent hash l r) := by
  have h := GoodNode.node true (setIsLeft l true) (setIsLeft r false)
    (GoodNode_setIsLeft hl true) (GoodNode_setIsLeft hr false)
  rw [value_setIsLeft, value_setIsLeft] at h
  exact h

theorem GoodNode_foldLevel (hash : String → String) (leaves : List String) :
    ∀ ns : List HNode, (∀ n ∈ ns, GoodNode hash leaves n) →
      ∀ m ∈ foldLevel hash ns, GoodNode hash leaves m
  | [], _, m, hm => by
    rw [foldLevel_nil] at hm
    simp at hm
  | [x], h, m, hm => by
    rw [foldLevel_single] at hm
    simp only [List.mem_singleton] at hm
    obtain rfl := hm
    exact h _ (by simp)
  | x :: y :: rest, h, m, hm => by
    rw [foldLevel_cons_cons] at hm
    rcases List.mem_cons.mp hm with h1 | h1
    · subst h1
      exact GoodNode_make_parent (h x (by simp)) (h y (by simp))
    · exact GoodNode_foldLevel hash leaves rest (fun n hn => h n (by simp [hn])) m h1

theorem GoodNode_merkle_root_aux (hash : String → String) (leaves : List String) :
    ∀ (fuel : Nat) (ns : List HNode) (r : HNode), (∀ n ∈ ns, GoodNode hash leaves n) →
      merkle_root_aux hash fuel ns = some r → GoodNode hash leaves r
  | 0, ns, r, _, hr => by simp [merkle_root_aux] at hr
  | fuel + 1, ns, r, h, hr => by
    by_cases h1 : (ns.length == 1) = true
    · rw [merkle_root_aux_one hash fuel ns h1] at hr
      obtain ⟨y, rfl⟩ := List.length_eq_one.mp (by simpa using h1)
      injection hr with h2
      exact h2 ▸ h y (by simp)
    · have h1' : (ns.length == 1) = false := by
        revert h1
        cases ns.length == 1
        · intro
          rfl
        · intro hc
          exact absurd rfl hc
      rw [merkle_root_aux_step hash fuel ns h1'] at hr
      exact GoodNode_merkle_root_aux hash leaves fuel (foldLevel hash ns) r
        (GoodNode_foldLevel hash leaves ns h) hr

/-! The claims. -/

/-- C1: for every non-empty list of leaf strings L and every index i with
0 <= i < len(L), verify_proof(merkle_root(L), merkle_proof(L, i)) returns
true. -/
theorem C1_round_trip (hash : String → String) (L : List String) (i : Nat)
    (_hne : L ≠ []) (hi : i < L.length) :
    ∃ root mp, merkle_root hash L = some root ∧ merkle_proof hash L i = some mp ∧
      verify_proof hash root mp = true := by
  have hlen : (L.map (leafNode hash)).length = L.length := by simp
  have hx : (L.map (leafNode hash))[i]? = some (leafNode hash L[i]) := by
    simp [List.getElem?_map, List.getElem?_eq_getElem hi]
  obtain ⟨audit, root, hfa, hchain⟩ :=
    aux_key hash L.length (L.map (leafNode hash)) i (leafNode hash L[i]) hlen hx
  obtain ⟨hp, hr⟩ := hfa L.length le_rfl
  refine ⟨root, ⟨audit, L.length, i, L[i]⟩, ?_, ?_, ?_⟩
  · unfold merkle_root
    exact hr
  · unfold merkle_proof
    simp only [hlen]
    rw [hp, List.getElem?_eq_getElem hi]
  · unfold verify_proof
    simp only
    have hv : (leafNode hash L[i]).value = hash L[i] := rfl
    rw [← hv, hchain]
    simp

/-- C1 witness: the round trip at the concrete instance hash = hashInj,
L = ["a","b","c"], i = 2. -/
theorem C1_round_trip_witness :
    (["a", "b", "c"] : List String) ≠ [] ∧ 2 < (["a", "b", "c"] : List String).length ∧
    ∃ root mp, merkle_root hashInj ["a", "b", "c"] = some root ∧
      merkle_proof hashInj ["a", "b", "c"] 2 = some mp ∧
      verify_proof hashInj root mp = true :=
  ⟨by decide, by decide, C1_round_trip hashInj ["a", "b", "c"] 2 (by decide) (by decide)⟩

/-- C7: verify_proof reads only the hashes and leaf_content fields of the
proof; two proofs agreeing on those (with arbitrary leaf_index and
num_of_leaves) verify identically against any root. -/
theorem C7_verify_ignores_index_fields (hash : String → String) (root : HNode)
    (p₁ p₂ : MerkleProof) (hh : p₁.hashes = p₂.hashes)
    (hc : p₁.leaf_content = p₂.leaf_content) :
    verify_proof hash root p₁ = verify_proof hash root p₂ := by
  unfold verify_proof
  rw [hh, hc]

/-- C7 witness: two concrete proofs differing only in leaf_index and
num_of_leaves verify identically. -/
theorem C7_verify_ignores_index_fields_witness :
    verify_proof hashInj (hashNew "#a;") ⟨[], 5, 1, "a"⟩ =
      verify_proof hashInj (hashNew "#a;") ⟨[], 99, 42, "a"⟩ :=
  C7_verify_ignores_index_fields hashInj (hashNew "#a;") ⟨[], 5, 1, "a"⟩ ⟨[], 99, 42, "a"⟩ rfl rfl

/-- C10: a proof with an empty audit list verifies against a root node iff
the digest of its leaf_content equals the root's value; the proof generated
for the single leaf of a one-leaf tree has an empty audit list and verifies
against the root of that tree. -/
theorem C10_empty_audit (hash : String → String) :
    (∀ (root : HNode) (mp : MerkleProof), mp.hashes = [] →
      (verify_proof hash root mp = true ↔ hash mp.leaf_content = root.value)) ∧
    ∀ x : String, merkle_proof hash [x] 0 = some ⟨[], 1, 0, x⟩ ∧
      merkle_root hash [x] = some (leafNode hash x) ∧
      verify_proof hash (leafNode hash x) ⟨[], 1, 0, x⟩ = true := by
  constructor
  · intro root mp h
    unfold verify_proof
    rw [h, chain_nil]
    exact beq_iff_eq
  · intro x
    refine ⟨rfl, rfl, ?_⟩
    simp [verify_proof, chain, leafNode, hashNew, HNode.value]

/-- C10 witness: the empty-audit characterization and the one-leaf proof at
concrete inputs. -/
theorem C10_empty_audit_witness :
    (verify_proof hashInj (hashNew "#a;") ⟨[], 1, 0, "a"⟩ = true ↔
      hashInj "a" = (hashNew "#a;").value) ∧
    merkle_proof hashInj ["q"] 0 = some ⟨[], 1, 0, "q"⟩ :=
  ⟨(C10_empty_audit hashInj).1 (hashNew "#a;") ⟨[], 1, 0, "a"⟩ rfl,
    ((C10_empty_audit hashInj).2 "q").1⟩

/-- C3: contrary to the claim that an empty leaf list yields an explicit,
defined failure, merkle_root([]) and merkle_proof([], i) diverge: the level
fold maps the empty level to itself and the recursion never terminates (no
fuel bound yields a result), modelling the Rust stack-overflowing infinite
recursion. -/
theorem C3_empty_diverges (hash : String → String) (fuel : Nat) (acc : List HNode) (t : Nat) :
    merkle_root_aux hash fuel [] = none ∧ merkle_proof_aux hash fuel [] acc t = none ∧
    foldLevel hash [] = [] ∧ merkle_root hash [] = none ∧ merkle_proof hash [] t = none :=
  ⟨merkle_root_aux_empty hash fuel, merkle_proof_aux_empty hash fuel acc t,
    foldLevel_nil hash, merkle_root_aux_empty hash 0, rfl⟩

/-- C4: the last node of an odd level is promoted unchanged to the next level
(it is not hashed with anything), and concretely the root digest of
["a","b","c"] is hash(hash(hash "a" ++ hash "b") ++ hash "c"). -/
theorem C4_odd_promotion (hash : String → String) :
    (∀ ns : List HNode, ns.length % 2 = 1 →
      (foldLevel hash ns).getLast? = ns.getLast?) ∧
    (merkle_root hash ["a", "b", "c"]).map HNode.value =
      some (hash (hash (hash "a" ++ hash "b") ++ hash "c")) :=
  ⟨fun ns h => foldLevel_getLast_odd hash ns h, rfl⟩

/-- C4 witness: promotion at a concrete odd level and the concrete root
digest of ["a","b","c"] under hashInj. -/
theorem C4_odd_promotion_witness :
    ([hashNew "x", hashNew "y", hashNew "z"] : List HNode).length % 2 = 1 ∧
    (foldLevel hashInj [hashNew "x", hashNew "y", hashNew "z"]).getLast? =
      ([hashNew "x", hashNew "y", hashNew "z"] : List HNode).getLast? ∧
    (merkle_root hashInj ["a", "b", "c"]).map HNode.value = some "###a;#b;;#c;;" :=
  ⟨by decide, (C4_odd_promotion hashInj).1 [hashNew "x", hashNew "y", hashNew "z"] (by decide),
    (C4_odd_promotion hashInj).2⟩

/-- C2 counterexample: merkle_proof(["a","b"], 2) does not reject before
hashing — it performs 3 Hash::hash invocations (2 leaves and 1 parent, the
whole tree) and only then fails, at the leaves[leaf_index] access, with a
panic rather than an InvalidIndex error value. -/
theorem C2_counterexample :
    merkle_proof_traced hashInj ["a", "b"] 2 = (3, none) ∧
    (merkle_proof_traced hashInj ["a", "b"] 2).1 ≠ 0 :=
  ⟨rfl, by decide⟩

/-- C2 (amended): for a non-empty leaf list and an out-of-range index,
merkle_proof produces no MerkleProof — it panics at the leaves[leaf_index]
slice access (modelled by none) — and the panic happens only after the whole
tree has been hashed: exactly 2*len(L) - 1 Hash::hash invocations precede
it. -/
theorem C2_out_of_range (hash : String → String) (L : List String) (i : Nat)
    (hne : L ≠ []) (hi : L.length ≤ i) :
    merkle_proof hash L i = none ∧
    merkle_proof_traced hash L i = (2 * L.length - 1, none) := by
  have hlen : (L.map (leafNode hash)).length = L.length := by simp
  have hpos : 0 < L.length := List.length_pos.mpr hne
  have hidx : L[i]? = none := List.getElem?_eq_none hi
  constructor
  · obtain ⟨a, ha⟩ := merkle_proof_aux_some hash L.length (L.map (leafNode hash)) [] i
      hlen hpos L.length le_rfl
    unfold merkle_proof
    simp only [hlen]
    rw [ha, hidx]
  · obtain ⟨a, ha⟩ := merkle_proof_aux_traced_key hash L.length (L.map (leafNode hash)) [] i
      L.length hlen hpos L.length le_rfl
    unfold merkle_proof_traced
    simp only [hlen]
    rw [ha, hidx]
    have h2 : L.length + (L.length - 1) = 2 * L.length - 1 := by omega
    rw [h2]

/-- C2 witness: the amended statement at hash = hashInj, L = ["a","b"],
i = 2. -/
theorem C2_out_of_range_witness :
    merkle_proof hashInj ["a", "b"] 2 = none ∧
    merkle_proof_traced hashInj ["a", "b"] 2 =
      (2 * (["a", "b"] : List String).length - 1, none) :=
  C2_out_of_range hashInj ["a", "b"] 2 (by decide) (by decide)

/-- C9: for a non-empty leaf list the level-folding recursion of merkle_root
terminates with a root, taking exactly ceil(log2 n) = Nat.clog 2 n folding
passes, and every fold of a level of size at least 2 strictly shrinks it. -/
theorem C9_termination_depth (hash : String → String) (L : List String) (hne : L ≠ []) :
    (∀ ns : List HNode, 2 ≤ ns.length → (foldLevel hash ns).length < ns.length) ∧
    ∃ r, merkle_root_steps hash L = some (r, Nat.clog 2 L.length) ∧
      merkle_root hash L = some r := by
  constructor
  · intro ns h2
    rw [foldLevel_length]
    omega
  · have hlen : (L.map (leafNode hash)).length = L.length := by simp
    have hpos : 0 < L.length := List.length_pos.mpr hne
    obtain ⟨r, hs, hr⟩ := merkle_root_aux_steps_key hash L.length (L.map (leafNode hash))
      hlen hpos L.length le_rfl
    exact ⟨r, hs, hr⟩

/-- C9 witness: termination with depth Nat.clog 2 3 = 2 for three leaves,
and strict shrinking of a concrete 2-node level. -/
theorem C9_termination_depth_witness :
    (2 ≤ ([hashNew "x", hashNew "y"] : List HNode).length ∧
      (foldLevel hashInj [hashNew "x", hashNew "y"]).length <
        ([hashNew "x", hashNew "y"] : List HNode).length) ∧
    ∃ r, merkle_root_steps hashInj ["a", "b", "c"] = some (r, Nat.clog 2 3) ∧
      merkle_root hashInj ["a", "b", "c"] = some r :=
  ⟨⟨by decide, (C9_termination_depth hashInj ["a", "b", "c"] (by decide)).1
      [hashNew "x", hashNew "y"] (by decide)⟩,
    (C9_termination_depth hashInj ["a", "b", "c"] (by decide)).2⟩

/-- C8: every node reachable from a root built by merkle_root either has no
children and carries the digest of a raw leaf, or has exactly two children
and carries the digest of the concatenation of their digests. -/
theorem C8_shape_invariant (hash : String → String) (leaves : List String) (r : HNode)
    (h : merkle_root hash leaves = some r) : GoodNode hash leaves r := by
  unfold merkle_root at h
  refine GoodNode_merkle_root_aux hash leaves leaves.length (leaves.map (leafNode hash)) r ?_ h
  intro n hn
  rw [List.mem_map] at hn
  obtain ⟨s, hs, rfl⟩ := hn
  exact GoodNode.leaf (hash s) true (List.mem_map_of_mem hash hs)

/-- C8 witness: the invariant at the concrete two-leaf tree under hashInj. -/
theorem C8_shape_invariant_witness :
    merkle_root hashInj ["a", "b"] =
      some (HNode.mk "##a;#b;;" true (some (.mk "#a;" true none none))
        (some (.mk "#b;" false none none))) ∧
    GoodNode hashInj ["a", "b"]
      (HNode.mk "##a;#b;;" true (some (.mk "#a;" true none none))
        (some (.mk "#b;" false none none))) :=
  ⟨rfl, C8_shape_invariant hashInj ["a", "b"] _ rfl⟩

/-- C5: assuming the digest function is injective (the idealization of
SHA-256 collision resistance), appending any non-empty suffix to the
leaf_content of a proof produced by merkle_proof makes verify_proof reject
it against the original root. -/
theorem C5_tamper_detection (hash : String → String) (hinj : Function.Injective hash)
    (L : List String) (i : Nat) (suffix : String) (_hne : L ≠ []) (hi : i < L.length)
    (hs : suffix ≠ "") (root : HNode) (mp : MerkleProof)
    (hroot : merkle_root hash L = some root) (hmp : merkle_proof hash L i = some mp)
    (_hv : verify_proof hash root mp = true) :
    verify_proof hash root
      ⟨mp.hashes, mp.num_of_leaves, mp.leaf_index, mp.leaf_content ++ suffix⟩ = false := by
  have hlen : (L.map (leafNode hash)).length = L.length := by simp
  have hx : (L.map (leafNode hash))[i]? = some (leafNode hash L[i]) := by
    simp [List.getElem?_map, List.getElem?_eq_getElem hi]
  obtain ⟨audit, root', hfa, hchain⟩ :=
    aux_key hash L.length (L.map (leafNode hash)) i (leafNode hash L[i]) hlen hx
  obtain ⟨hp, hr⟩ := hfa L.length le_rfl
  have hroot2 : merkle_root hash L = some root' := hr
  have hmp2 : merkle_proof hash L i = some ⟨audit, L.length, i, L[i]⟩ := by
    unfold merkle_proof
    simp only [hlen]
    rw [hp, List.getElem?_eq_getElem hi]
  obtain rfl : root' = root := by
    have h2 := hroot2.symm.trans hroot
    exact Option.some.inj h2
  obtain rfl : (⟨audit, L.length, i, L[i]⟩ : MerkleProof) = mp := by
    have h2 := hmp2.symm.trans hmp
    exact Option.some.inj h2
  unfold verify_proof
  rw [beq_eq_false_iff_ne]
  intro heq
  have h4 : chain hash audit (hash (L[i] ++ suffix)) = chain hash audit (hash L[i]) :=
    heq.trans hchain.symm
  have h3 := chain_injective hash hinj audit _ _ h4
  exact str_append_ne_self L[i] suffix hs (hinj h3)

/-- C5 witness: tamper detection at the concrete instance hash = hashInj,
L = ["a","b"], i = 0, suffix = "x". -/
theorem C5_tamper_detection_witness :
    ∃ root mp, merkle_root hashInj ["a", "b"] = some root ∧
      merkle_proof hashInj ["a", "b"] 0 = some mp ∧
      verify_proof hashInj root mp = true ∧
      verify_proof hashInj root
        ⟨mp.hashes, mp.num_of_leaves, mp.leaf_index, mp.leaf_content ++ "x"⟩ = false := by
  have h1 : merkle_root hashInj ["a", "b"] =
      some (HNode.mk "##a;#b;;" true (some (.mk "#a;" true none none))
        (some (.mk "#b;" false none none))) := rfl
  have h2 : merkle_proof hashInj ["a", "b"] 0 =
      some ⟨[.mk "#b;" false none none], 2, 0, "a"⟩ := rfl
  have h3 : verify_proof hashInj
      (HNode.mk "##a;#b;;" true (some (.mk "#a;" true none none))
        (some (.mk "#b;" false none none)))
      ⟨[.mk "#b;" false none none], 2, 0, "a"⟩ = true := rfl
  exact ⟨_, _, h1, h2, h3,
    C5_tamper_detection hashInj hashInj_injective ["a", "b"] 0 "x" (by decide) (by decide)
      (by decide) _ _ h1 h2 h3⟩

/-- C6: for leaves ["0","1","2"], the root digest is
hash(hash(hash "0" ++ hash "1") ++ hash "2"); the proof for index 2 has
exactly one audit hash, of value hash(hash "0" ++ hash "1") and orientation
left; that proof verifies against that root; and (given injectivity of the
digest) pushing any character onto the leaf content makes verification
fail. -/
theorem C6_concrete_scenario (hash : String → String) (hinj : Function.Injective hash) :
    (merkle_root hash ["0", "1", "2"]).map HNode.value =
      some (hash (hash (hash "0" ++ hash "1") ++ hash "2")) ∧
    ∃ root mp, merkle_root hash ["0", "1", "2"] = some root ∧
      merkle_proof hash ["0", "1", "2"] 2 = some mp ∧
      mp.hashes.map (fun h => (h.value, h.isLeft)) = [(hash (hash "0" ++ hash "1"), true)] ∧
      verify_proof hash root mp = true ∧
      ∀ c : Char, verify_proof hash root
        ⟨mp.hashes, mp.num_of_leaves, mp.leaf_index, mp.leaf_content.push c⟩ = false := by
  refine ⟨rfl,
    make_parent hash (make_parent hash (leafNode hash "0") (leafNode hash "1"))
      (leafNode hash "2"),
    ⟨[setIsLeft (make_parent hash (leafNode hash "0") (leafNode hash "1")) true], 3, 2, "2"⟩,
    rfl, rfl, rfl, ?_, ?_⟩
  · exact beq_self_eq_true _
  · intro c
    unfold verify_proof
    rw [beq_eq_false_iff_ne]
    intro heq
    have heq' :
        hash ((make_parent hash (leafNode hash "0") (leafNode hash "1")).value ++
            hash (String.push "2" c)) =
          hash ((make_parent hash (leafNode hash "0") (leafNode hash "1")).value ++
            hash "2") := heq
    have h2 := str_append_left_cancel _ _ _ (hinj heq')
    exact str_push_ne_self "2" c (hinj h2)

/-- C6 witness: the scenario instantiated at hash = hashInj, with the root
digest evaluated to its literal value. -/
theorem C6_concrete_scenario_witness :
    (merkle_root hashInj ["0", "1", "2"]).map HNode.value = some "###0;#1;;#2;;" ∧
    (∃ root mp, merkle_root hashInj ["0", "1", "2"] = some root ∧
      merkle_proof hashInj ["0", "1", "2"] 2 = some mp ∧
      mp.hashes.map (fun h => (h.value, h.isLeft)) = [("##0;#1;;", true)] ∧
      verify_proof hashInj root mp = true ∧
      ∀ c : Char, verify_proof hashInj root
        ⟨mp.hashes, mp.num_of_leaves, mp.leaf_index, mp.leaf_content.push c⟩ = false) :=
  ⟨(C6_concrete_scenario hashInj hashInj_injective).1,
    (C6_concrete_scenario hashInj hashInj_injective).2⟩
